import Mathlib

/-!
Verification development for the gif-view playback core.

The playback state machine is embedded from `sdlapp.c` (`app_new`,
`app_timer_increment`, `app_next_frame`, `app_previous_frame`,
`_is_app_on_final_frame`).  The cyclic singly-linked list of graphic
blocks is represented as an arena: a list of frames together with a
current index, the successor of index `i` being `(i + 1) % length`
(the last block's successor is the first, exactly as the C code links
them).  The C `double` timer and playback speed are modelled as exact
rationals, with `fmod` rendered as truncated remainder.

The GIF data model is embedded from `gif.h`.  The block parser and the
LZW decoder (`gif.c`) are not among the sources, so they are modelled
from the spec where a claim needs them; those definitions carry a
`Modelled from the spec:` doc comment.
-/

set_option maxHeartbeats 1000000

namespace GifView

attribute [local semireducible] Rat.add Rat.sub Rat.mul Rat.inv

/-- Truncation of a rational toward zero; this is the quotient convention
used by C `fmod`. -/
def qtrunc (q : ℚ) : ℤ := if 0 ≤ q then ⌊q⌋ else ⌈q⌉

/-- Shallow embedding of C `fmod` over exact rationals:
`fmod x y = x - y * trunc (x / y)`. -/
def fmod (x y : ℚ) : ℚ := x - y * (qtrunc (x / y) : ℚ)

/-- One graphic frame as the playback code in `sdlapp.c` sees it: the
`struct Graphic` data reachable from a `GraphicList` node, reduced to the
fields playback reads (`delay`) plus its pixel payload (standing in for
the texture data, so that preservation of the document can be stated). -/
structure Frame where
  delay : ℚ
  pixels : List ℕ
deriving DecidableEq

instance : Inhabited Frame := ⟨⟨0, []⟩⟩

/-- The `struct App` playback state from `sdlapp.c`, restricted to the
playback-relevant fields.  The cyclic `GraphicList` is an arena: `images`
is the block list in document order and `current_frame` an index into it;
the successor of block `i` is block `(i + 1) % images.length`.  The
`paused`, `looping` and `playback_speed` fields live inside `app->view`
in the C struct; they are flattened here. -/
structure App where
  images : List Frame
  current_frame : ℕ
  timer : ℚ
  full_time : ℚ
  paused : Bool
  looping : Bool
  playback_speed : ℚ
deriving DecidableEq

/-- Delay of the current frame, `app->current_frame->data->delay`. -/
def delayAt (a : App) : ℚ := (a.images.getD a.current_frame default).delay

/-- Embedding of `_is_app_on_final_frame`:
`app->current_frame->next == app->images`, i.e. the successor of the
current block is the first block. -/
def _is_app_on_final_frame (a : App) : Bool :=
  decide ((a.current_frame + 1) % a.images.length = 0)

/-- Embedding of `app_next_frame` (current revision of `sdlapp.c`):
`app->timer -= image->delay; app->current_frame = app->current_frame->next;`. -/
def app_next_frame (a : App) : App :=
  { a with
    timer := a.timer - delayAt a
    current_frame := (a.current_frame + 1) % a.images.length }

/-- Modelled from the spec: `viewer_should_timer_increment` is defined in
the viewer module, which is absent from the sources.  Per the spec,
`tick()` is a no-op returning "did not advance" exactly when playback is
paused (the earlier revision of `sdlapp.c` reads `if (app->paused) return
false;` directly, confirming this reading). -/
def viewer_should_timer_increment (a : App) : Bool := !a.paused

/-- The frame-advance loop of `app_timer_increment`:
`for (image = current->data; timer >= image->delay; image = current->data)
 { if (final && !looping) break; else { app_next_frame(app); advanced = true; } }`.
The C loop has no fuel; the fuel argument here is an upper bound on the
iteration count, and `loopGo_stopped` below proves that the fuel used by
`app_timer_increment` is never exhausted under the engine invariants. -/
def loopGo : ℕ → App → Bool → App × Bool
  | 0, a, adv => (a, adv)
  | m + 1, a, adv =>
    if delayAt a ≤ a.timer then
      if _is_app_on_final_frame a = true ∧ a.looping = false then (a, adv)
      else loopGo m (app_next_frame a) true
    else (a, adv)

/-- Embedding of `app_timer_increment` (current revision): bail out when
the viewer says not to tick, otherwise
`app->timer = fmod(app->timer + app->view.playback_speed, app->full_time);`
followed by the frame-advance loop; returns whether any advance occurred. -/
def app_timer_increment (a : App) : App × Bool :=
  if viewer_should_timer_increment a = false then (a, false)
  else
    loopGo (a.images.length + 1)
      { a with timer := fmod (a.timer + a.playback_speed) a.full_time } false

/-- Embedding of the `full_time` computation in `app_new`:
`for (curr = images; curr->next != images; curr = curr->next)
   full_time += curr->data->delay;`
i.e. walk the cyclic list from the first block, adding each block's delay,
stopping at the block whose successor is the first block (whose own delay
is therefore never added). -/
def cycleTime : List Frame → ℚ
  | [] => 0
  | [_] => 0
  | f :: g :: t => f.delay + cycleTime (g :: t)

/-- Embedding of the playback-relevant part of `app_new`: current block is
the first block, timer is 0, `full_time` is computed by the walk above,
paused = false, looping = true, playback speed = 1. -/
def app_new (frames : List Frame) : App :=
  { images := frames
    current_frame := 0
    timer := 0
    full_time := cycleTime frames
    paused := false
    looping := true
    playback_speed := 1 }

/-- Iterated `app_next_frame` (the explicit "next frame" user command,
applied several times). -/
def app_next_frame_iter : ℕ → App → App
  | 0, a => a
  | k + 1, a => app_next_frame_iter k (app_next_frame a)

/-- The walk inside `app_previous_frame`:
`while (app->current_frame->next != current) app_next_frame(app);`
where `current` is the block saved on entry.  The C loop terminates after
exactly N - 1 steps from an in-range position; the fuel N is an upper
bound on the iterations, shown sufficient in `prevLoop_current` below. -/
def prevLoop : ℕ → ℕ → App → App
  | 0, _, a => a
  | fuel + 1, saved, a =>
    if (a.current_frame + 1) % a.images.length = saved then a
    else prevLoop fuel saved (app_next_frame a)

/-- Embedding of `app_previous_frame`: walk forward to the predecessor of
the saved current block, then `app->timer = 0;`. -/
def app_previous_frame (a : App) : App :=
  { prevLoop a.images.length a.current_frame a with timer := 0 }

/-- Repeated `tick()` calls (`app_timer_increment`, discarding the
"advanced" result between calls). -/
def ticksN : ℕ → App → App
  | 0, a => a
  | k + 1, a => ticksN k (app_timer_increment a).1

/-- The stopping condition of the frame-advance loop: either the loop
guard `timer >= current delay` fails, or the loop would break because the
current block is final and looping is off. -/
def Stopped (a : App) : Prop :=
  a.timer < delayAt a ∨ (_is_app_on_final_frame a = true ∧ a.looping = false)

/-- Spec-side description of the `tick()` while-loop, following §4.4 of
the spec word for word: while `timer >= current_block.delay`, if `current`
is the last block and `looping` is false, stop advancing; otherwise
subtract the delay from the timer, advance `current` to its successor and
mark "advanced".  `WhileSpec a a' b` says the loop started at `a` may end
at `a'` having advanced at least once exactly when `b = true`. -/
inductive WhileSpec : App → App → Bool → Prop
  | exit (a : App) : a.timer < delayAt a → WhileSpec a a false
  | freeze (a : App) :
      delayAt a ≤ a.timer → _is_app_on_final_frame a = true → a.looping = false →
      WhileSpec a a false
  | step (a a' : App) (b : Bool) :
      delayAt a ≤ a.timer → ¬(_is_app_on_final_frame a = true ∧ a.looping = false) →
      WhileSpec (app_next_frame a) a' b → WhileSpec a a' true

/-- Cyclic delay sum: total delay of `m` consecutive blocks starting at
index `c`, following successor links. -/
def cycSum (fs : List Frame) : ℕ → ℕ → ℚ
  | _, 0 => 0
  | c, m + 1 => (fs.getD c default).delay + cycSum fs ((c + 1) % fs.length) m

/-- Index-sum of all block delays. -/
def sumDelays (fs : List Frame) : ℚ :=
  ∑ j ∈ Finset.range fs.length, (fs.getD j default).delay

example : cycleTime [⟨2, []⟩, ⟨3, []⟩, ⟨5, []⟩] = 5 := by decide
example : (app_new [⟨2, []⟩]).full_time = 0 := by decide
example : fmod 7 3 = 1 := by decide
example : fmod (-1) 3 = -1 := by decide

lemma fmod_lt (x : ℚ) {y : ℚ} (hy : 0 < y) : fmod x y < y := by
  have hy0 : y ≠ 0 := ne_of_gt hy
  have hx : y * (x / y) = x := by field_simp
  unfold fmod qtrunc
  by_cases h : 0 ≤ x / y
  · rw [if_pos h]
    have h1 : Int.fract (x / y) < 1 := Int.fract_lt_one _
    have h2 : Int.fract (x / y) = x / y - ⌊x / y⌋ := rfl
    nlinarith [Int.fract_lt_one (x / y)]
  · rw [if_neg h]
    have h1 : x / y ≤ (⌈x / y⌉ : ℚ) := Int.le_ceil _
    nlinarith

lemma delayAt_nonneg {a : App} (hnn : ∀ f ∈ a.images, 0 ≤ f.delay) : 0 ≤ delayAt a := by
  unfold delayAt
  by_cases hc : a.current_frame < a.images.length
  · rw [List.getD_eq_getElem?_getD, List.getElem?_eq_getElem hc, Option.getD_some]
    exact hnn _ (List.getElem_mem hc)
  · rw [List.getD_eq_getElem?_getD, List.getElem?_eq_none (le_of_not_lt hc), Option.getD_none]
    exact le_refl 0

lemma app_next_frame_fields (a : App) :
    (app_next_frame a).images = a.images ∧
    (app_next_frame a).current_frame = (a.current_frame + 1) % a.images.length ∧
    (app_next_frame a).timer = a.timer - delayAt a ∧
    (app_next_frame a).paused = a.paused ∧
    (app_next_frame a).looping = a.looping ∧
    (app_next_frame a).playback_speed = a.playback_speed ∧
    (app_next_frame a).full_time = a.full_time := by
  simp [app_next_frame]

lemma loopGo_const : ∀ (m : ℕ) (a : App) (adv : Bool),
    ((loopGo m a adv).1).images = a.images ∧
    ((loopGo m a adv).1).paused = a.paused ∧
    ((loopGo m a adv).1).looping = a.looping ∧
    ((loopGo m a adv).1).playback_speed = a.playback_speed ∧
    ((loopGo m a adv).1).full_time = a.full_time
  | 0, a, adv => by simp [loopGo]
  | m + 1, a, adv => by
    unfold loopGo
    split_ifs with h1 h2
    · exact ⟨rfl, rfl, rfl, rfl, rfl⟩
    · have ih := loopGo_const m (app_next_frame a) true
      simpa [app_next_frame] using ih
    · exact ⟨rfl, rfl, rfl, rfl, rfl⟩

lemma loopGo_adv : ∀ (m : ℕ) (a : App) (adv : Bool),
    loopGo m a adv = ((loopGo m a false).1, adv || (loopGo m a false).2)
  | 0, a, adv => by simp [loopGo]
  | m + 1, a, adv => by
    unfold loopGo
    split_ifs with h1 h2
    · simp
    · rw [loopGo_adv m (app_next_frame a) true]
      simp
    · simp

lemma stopped_loopGo {a : App} (h : Stopped a) (m : ℕ) (adv : Bool) :
    loopGo m a adv = (a, adv) := by
  cases m with
  | zero => rfl
  | succ m =>
    rcases h with h | h
    · simp [loopGo, not_le.mpr h]
    · simp [loopGo, h.1, h.2]

lemma loopGo_extend : ∀ (n : ℕ) (a : App) (adv : Bool),
    Stopped ((loopGo n a adv).1) →
    ∀ m, n ≤ m → loopGo m a adv = loopGo n a adv
  | 0, a, adv => by
    intro h m _
    have h' : Stopped a := h
    rw [stopped_loopGo h' m adv]
    rfl
  | n + 1, a, adv => by
    intro h m hm
    obtain ⟨m, rfl⟩ : ∃ m', m = m' + 1 := ⟨m - 1, by omega⟩
    by_cases h1 : delayAt a ≤ a.timer
    · by_cases h2 : _is_app_on_final_frame a = true ∧ a.looping = false
      · simp only [loopGo, if_pos h1, if_pos h2]
      · have h' : Stopped ((loopGo n (app_next_frame a) true).1) := by
          simpa only [loopGo, if_pos h1, if_neg h2] using h
        simp only [loopGo, if_pos h1, if_neg h2]
        exact loopGo_extend n (app_next_frame a) true h' m (by omega)
    · simp only [loopGo, if_neg h1]

lemma loopGo_stopped (fs : List Frame) (hnn : ∀ f ∈ fs, 0 ≤ f.delay) :
    ∀ (m : ℕ) (a : App) (adv : Bool), a.images = fs →
      a.timer < cycSum fs a.current_frame m →
      Stopped ((loopGo m a adv).1)
  | 0, a, adv => by
    intro himg ht
    simp only [cycSum] at ht
    left
    have h0 : 0 ≤ delayAt a := delayAt_nonneg (himg ▸ hnn)
    calc a.timer < 0 := ht
    _ ≤ delayAt a := h0
  | m + 1, a, adv => by
    intro himg ht
    by_cases h1 : delayAt a ≤ a.timer
    · by_cases h2 : _is_app_on_final_frame a = true ∧ a.looping = false
      · simp only [loopGo, if_pos h1, if_pos h2]
        exact Or.inr h2
      · simp only [loopGo, if_pos h1, if_neg h2]
        apply loopGo_stopped fs hnn m (app_next_frame a) true
        · simpa [app_next_frame] using himg
        · have hd : delayAt a = (fs.getD a.current_frame default).delay := by
            rw [delayAt, himg]
          have hcur : (app_next_frame a).current_frame =
              (a.current_frame + 1) % fs.length := by
            simp [app_next_frame, himg]
          have htm : (app_next_frame a).timer = a.timer - delayAt a := rfl
          simp only [cycSum] at ht
          rw [htm, hcur]
          linarith
    · simp only [loopGo, if_neg h1]
      exact Or.inl (not_le.mp h1)

lemma cycSum_eq_sum (fs : List Frame) (hlen : 0 < fs.length) :
    ∀ (m c : ℕ), c < fs.length →
      cycSum fs c m =
        ∑ j ∈ Finset.range m, (fs.getD ((c + j) % fs.length) default).delay
  | 0, c => by
    intro hc
    simp [cycSum]
  | m + 1, c => by
    intro hc
    rw [Finset.sum_range_succ']
    have hc1 : (c + 1) % fs.length < fs.length := Nat.mod_lt _ hlen
    simp only [cycSum]
    rw [cycSum_eq_sum fs hlen m ((c + 1) % fs.length) hc1]
    have hrw : ∀ j : ℕ, ((c + 1) % fs.length + j) % fs.length = (c + (j + 1)) % fs.length := by
      intro j
      rw [Nat.mod_add_mod]
      congr 1
      omega
    rw [Finset.sum_congr rfl fun j _ => by rw [hrw j]]
    rw [Nat.add_zero, Nat.mod_eq_of_lt hc]
    ring

lemma sum_range_cyc (len c : ℕ) (hlen : 0 < len) (hc : c < len) (f : ℕ → ℚ) :
    ∑ j ∈ Finset.range len, f ((c + j) % len) = ∑ j ∈ Finset.range len, f j := by
  have : NeZero len := ⟨hlen.ne'⟩
  have h1 : ∑ j ∈ Finset.range len, f ((c + j) % len) =
      ∑ j : Fin len, f ((c + j.val) % len) :=
    (Fin.sum_univ_eq_sum_range (fun j => f ((c + j) % len)) len).symm
  have h2 : ∑ j : Fin len, f ((c + j.val) % len) =
      ∑ j : Fin len, f (((⟨c, hc⟩ : Fin len) + j).val) := by
    apply Finset.sum_congr rfl
    intro j _
    congr 1
  have h3 : ∑ j : Fin len, f (((⟨c, hc⟩ : Fin len) + j).val) =
      ∑ j : Fin len, f j.val :=
    Equiv.sum_comp (Equiv.addLeft (⟨c, hc⟩ : Fin len)) (fun j => f j.val)
  rw [h1, h2, h3, Fin.sum_univ_eq_sum_range]

lemma sumDelays_cons (f : Frame) (rest : List Frame) :
    sumDelays (f :: rest) = f.delay + sumDelays rest := by
  unfold sumDelays
  rw [List.length_cons, Finset.sum_range_succ']
  simp [List.getD_cons_succ, List.getD_cons_zero, add_comm]

lemma cycleTime_le_sumDelays :
    ∀ (fs : List Frame), (∀ f ∈ fs, 0 ≤ f.delay) → cycleTime fs ≤ sumDelays fs
  | [] => by intro _; simp [cycleTime, sumDelays]
  | [f] => by
    intro hnn
    have : sumDelays [f] = f.delay := by simp [sumDelays]
    rw [this]
    simpa [cycleTime] using hnn f (by simp)
  | f :: g :: t => by
    intro hnn
    have ih := cycleTime_le_sumDelays (g :: t) (fun x hx => hnn x (List.mem_cons_of_mem f hx))
    rw [sumDelays_cons]
    simp only [cycleTime]
    linarith

lemma getD_delay_nonneg {fs : List Frame} (hnn : ∀ f ∈ fs, 0 ≤ f.delay) (i : ℕ) :
    0 ≤ (fs.getD i default).delay := by
  by_cases hc : i < fs.length
  · rw [List.getD_eq_getElem?_getD, List.getElem?_eq_getElem hc, Option.getD_some]
    exact hnn _ (List.getElem_mem hc)
  · rw [List.getD_eq_getElem?_getD, List.getElem?_eq_none (le_of_not_lt hc), Option.getD_none]
    exact le_refl 0

lemma sumDelays_le_cycSum_whole (fs : List Frame) (hnn : ∀ f ∈ fs, 0 ≤ f.delay)
    (c : ℕ) (hc : c < fs.length) :
    sumDelays fs ≤ cycSum fs c (fs.length + 1) := by
  have hlen : 0 < fs.length := by omega
  rw [cycSum_eq_sum fs hlen (fs.length + 1) c hc]
  rw [Finset.sum_range_succ]
  have hrot := sum_range_cyc fs.length c (by omega) hc
    (fun i => (fs.getD i default).delay)
  rw [hrot]
  have : 0 ≤ (fs.getD ((c + fs.length) % fs.length) default).delay :=
    getD_delay_nonneg hnn _
  unfold sumDelays
  linarith

lemma tick_mid_stopped (a : App)
    (hc : a.current_frame < a.images.length)
    (hft : a.full_time = cycleTime a.images)
    (hpos : 0 < a.full_time)
    (hnn : ∀ f ∈ a.images, 0 ≤ f.delay) :
    Stopped ((loopGo (a.images.length + 1)
      { a with timer := fmod (a.timer + a.playback_speed) a.full_time } false).1) := by
  apply loopGo_stopped a.images hnn (a.images.length + 1)
    { a with timer := fmod (a.timer + a.playback_speed) a.full_time } false rfl
  show fmod (a.timer + a.playback_speed) a.full_time < cycSum a.images a.current_frame _
  have h1 : fmod (a.timer + a.playback_speed) a.full_time < a.full_time :=
    fmod_lt _ hpos
  have h2 : cycleTime a.images ≤ sumDelays a.images := cycleTime_le_sumDelays _ hnn
  have h3 : sumDelays a.images ≤ cycSum a.images a.current_frame (a.images.length + 1) :=
    sumDelays_le_cycSum_whole a.images hnn a.current_frame hc
  linarith [hft ▸ h1]

lemma loopGo_whileSpec : ∀ (m : ℕ) (a : App),
    Stopped ((loopGo m a false).1) →
    WhileSpec a (loopGo m a false).1 (loopGo m a false).2
  | 0, a => by
    intro h
    have h' : Stopped a := h
    by_cases hlt : a.timer < delayAt a
    · exact WhileSpec.exit a hlt
    · rcases h' with h' | h'
      · exact absurd h' hlt
      · exact WhileSpec.freeze a (not_lt.mp hlt) h'.1 h'.2
  | m + 1, a => by
    intro h
    by_cases h1 : delayAt a ≤ a.timer
    · by_cases h2 : _is_app_on_final_frame a = true ∧ a.looping = false
      · simp only [loopGo, if_pos h1, if_pos h2]
        exact WhileSpec.freeze a h1 h2.1 h2.2
      · have hrw : loopGo (m + 1) a false = loopGo m (app_next_frame a) true := by
          simp only [loopGo, if_pos h1, if_neg h2]
        rw [hrw] at h ⊢
        rw [loopGo_adv m (app_next_frame a) true] at h ⊢
        have h' : Stopped ((loopGo m (app_next_frame a) false).1) := h
        have ih := loopGo_whileSpec m (app_next_frame a) h'
        simp only [Bool.true_or]
        exact WhileSpec.step a _ _ h1 h2 ih
    · simp only [loopGo, if_neg h1]
      exact WhileSpec.exit a (not_le.mp h1)

lemma cycleTime_eq_sum (fs : List Frame) :
    cycleTime fs = ∑ i ∈ Finset.range (fs.length - 1), (fs.getD i default).delay :=
  match fs with
  | [] => by simp [cycleTime]
  | [f] => by simp [cycleTime]
  | f :: g :: t => by
    have ih := cycleTime_eq_sum (g :: t)
    simp only [cycleTime, ih, List.length_cons]
    rw [show t.length + 1 + 1 - 1 = (t.length + 1 - 1) + 1 from by omega,
      Finset.sum_range_succ']
    simp [List.getD_cons_succ, List.getD_cons_zero, add_comm]

lemma tick_freeze {a : App} (hfin : _is_app_on_final_frame a = true)
    (hloop : a.looping = false) :
    (app_timer_increment a).1.current_frame = a.current_frame ∧
    (app_timer_increment a).1.images = a.images ∧
    (app_timer_increment a).1.looping = a.looping := by
  unfold app_timer_increment
  by_cases hp : viewer_should_timer_increment a = false
  · rw [if_pos hp]
    exact ⟨rfl, rfl, rfl⟩
  · rw [if_neg hp]
    have hstop :
        Stopped { a with timer := fmod (a.timer + a.playback_speed) a.full_time } :=
      Or.inr ⟨hfin, hloop⟩
    rw [stopped_loopGo hstop _ false]
    exact ⟨rfl, rfl, rfl⟩

lemma ticksN_freeze : ∀ (k : ℕ) (a : App),
    _is_app_on_final_frame a = true → a.looping = false →
    (ticksN k a).current_frame = a.current_frame
  | 0, a => by intro _ _; rfl
  | k + 1, a => by
    intro hfin hloop
    have hf := tick_freeze hfin hloop
    have h1 : _is_app_on_final_frame (app_timer_increment a).1 = true := by
      unfold _is_app_on_final_frame at hfin ⊢
      rw [hf.1, hf.2.1]
      exact hfin
    have h2 : (app_timer_increment a).1.looping = false := by
      rw [hf.2.2, hloop]
    calc (ticksN (k + 1) a).current_frame
        = (ticksN k (app_timer_increment a).1).current_frame := rfl
      _ = (app_timer_increment a).1.current_frame :=
          ticksN_freeze k (app_timer_increment a).1 h1 h2
      _ = a.current_frame := hf.1

lemma app_next_frame_iter_images : ∀ (k : ℕ) (a : App),
    (app_next_frame_iter k a).images = a.images
  | 0, _ => rfl
  | k + 1, a => (app_next_frame_iter_images k (app_next_frame a)).trans rfl

lemma app_next_frame_iter_current : ∀ (k : ℕ) (a : App),
    a.current_frame < a.images.length →
    (app_next_frame_iter k a).current_frame =
      (a.current_frame + k) % a.images.length
  | 0, a => by
    intro hc
    show a.current_frame = (a.current_frame + 0) % a.images.length
    rw [Nat.add_zero, Nat.mod_eq_of_lt hc]
  | k + 1, a => by
    intro hc
    have hlen : 0 < a.images.length := by omega
    have hc1 : (app_next_frame a).current_frame < (app_next_frame a).images.length := by
      show (a.current_frame + 1) % a.images.length < a.images.length
      exact Nat.mod_lt _ hlen
    have ih := app_next_frame_iter_current k (app_next_frame a) hc1
    show (app_next_frame_iter k (app_next_frame a)).current_frame = _
    rw [ih]
    show ((a.current_frame + 1) % a.images.length + k) % a.images.length = _
    rw [Nat.mod_add_mod]
    congr 1
    omega

lemma add_mod_ne (N s t : ℕ) (hs : s < N) (ht0 : 0 < t) (htN : t < N) :
    (s + t) % N ≠ s := by
  intro h
  have h1 : s % N = (s + t) % N := by rw [h, Nat.mod_eq_of_lt hs]
  have h2 : N ∣ (s + t) - s := (Nat.modEq_iff_dvd' (Nat.le_add_right s t)).mp h1
  rw [Nat.add_sub_cancel_left] at h2
  have := Nat.le_of_dvd ht0 h2
  omega

lemma prevLoop_images : ∀ (m s : ℕ) (a : App), (prevLoop m s a).images = a.images
  | 0, _, _ => rfl
  | m + 1, s, a => by
    unfold prevLoop
    split_ifs with h
    · rfl
    · exact (prevLoop_images m s (app_next_frame a)).trans rfl

lemma prevLoop_current (N : ℕ) (s : ℕ) (hs : s < N) :
    ∀ (m : ℕ) (a : App), 0 < m → m ≤ N → a.images.length = N →
      a.current_frame = (s + (N - m)) % N →
      (prevLoop m s a).current_frame = (s + (N - 1)) % N
  | 0, a => by intro h0; omega
  | m + 1, a => by
    intro _ hmN hlen hcur
    have hN : 0 < N := by omega
    have hcond : (a.current_frame + 1) % a.images.length = (s + (N - m)) % N := by
      rw [hlen, hcur, Nat.mod_add_mod]
      congr 1
      omega
    by_cases hm : m = 0
    · subst hm
      have : (a.current_frame + 1) % a.images.length = s := by
        rw [hcond, Nat.sub_zero, Nat.add_mod_right, Nat.mod_eq_of_lt hs]
      unfold prevLoop
      rw [if_pos this]
      exact hcur
    · have hne : (a.current_frame + 1) % a.images.length ≠ s := by
        rw [hcond]
        exact add_mod_ne N s (N - m) hs (by omega) (by omega)
      unfold prevLoop
      rw [if_neg hne]
      apply prevLoop_current N s hs m (app_next_frame a) (by omega) (by omega)
      · show a.images.length = N
        exact hlen
      · show (a.current_frame + 1) % a.images.length = (s + (N - m)) % N
        exact hcond

lemma filter_pred_eq_range (len : ℕ) (hlen : 0 < len) :
    (Finset.range len).filter (fun i => (i + 1) % len ≠ 0) = Finset.range (len - 1) := by
  ext i
  simp only [Finset.mem_filter, Finset.mem_range]
  constructor
  · rintro ⟨hi, hne⟩
    by_contra hcon
    have hii : i + 1 = len := by omega
    rw [hii, Nat.mod_self] at hne
    exact hne rfl
  · intro hi
    refine ⟨by omega, ?_⟩
    have : (i + 1) % len = i + 1 := Nat.mod_eq_of_lt (by omega)
    omega

/-- Concrete two-frame playback state used by witnesses. -/
def exApp1 : App :=
  { images := [⟨2, []⟩, ⟨3, []⟩]
    current_frame := 0
    timer := 1
    full_time := 2
    paused := false
    looping := true
    playback_speed := 1 }

/-- Concrete one-frame, non-looping playback state sitting on its final
frame, used by witnesses. -/
def exApp2 : App :=
  { images := [⟨1, []⟩]
    current_frame := 0
    timer := 0
    full_time := 0
    paused := false
    looping := false
    playback_speed := 1 }

/-- Concrete state with a nonzero timer, used by the counterexample to the
claim that `app_next_frame` resets the timer. -/
def exApp3 : App :=
  { images := [⟨3, [0]⟩, ⟨4, []⟩]
    current_frame := 0
    timer := 5
    full_time := 3
    paused := false
    looping := true
    playback_speed := 1 }

/-- Concrete paused playback state, used by witnesses. -/
def exApp4 : App :=
  { images := [⟨2, []⟩, ⟨3, []⟩]
    current_frame := 1
    timer := 1
    full_time := 2
    paused := true
    looping := true
    playback_speed := 1 }

/-- Claim C1: on a non-paused engine state (over a document with at least
one block, with the `app_new` invariants and a positive cycle time so that
the C `fmod` is defined), `app_timer_increment` first sets the timer to
`fmod (timer + playback_speed) full_time` and from that intermediate state
behaves exactly as the spec's while-loop: while `timer >= current delay`,
either freeze (final block, not looping) or subtract the delay and advance
to the successor; the returned boolean is true iff at least one advance
occurred (`WhileSpec` forces `true` exactly on runs with a `step`). -/
theorem app_timer_increment_follows_tick_spec (a : App)
    (hp : a.paused = false)
    (hc : a.current_frame < a.images.length)
    (hft : a.full_time = cycleTime a.images)
    (hpos : 0 < a.full_time)
    (hnn : ∀ f ∈ a.images, 0 ≤ f.delay) :
    WhileSpec { a with timer := fmod (a.timer + a.playback_speed) a.full_time }
      (app_timer_increment a).1 (app_timer_increment a).2 := by
  have hv : ¬ viewer_should_timer_increment a = false := by
    simp [viewer_should_timer_increment, hp]
  have hrw : app_timer_increment a =
      loopGo (a.images.length + 1)
        { a with timer := fmod (a.timer + a.playback_speed) a.full_time } false := by
    unfold app_timer_increment
    rw [if_neg hv]
  rw [hrw]
  exact loopGo_whileSpec _ _ (tick_mid_stopped a hc hft hpos hnn)

/-- Witness for C1 at the concrete state `exApp1`. -/
theorem app_timer_increment_follows_tick_spec_witness :
    exApp1.paused = false ∧ 0 < exApp1.full_time ∧
    WhileSpec { exApp1 with timer := fmod (exApp1.timer + exApp1.playback_speed) exApp1.full_time }
      (app_timer_increment exApp1).1 (app_timer_increment exApp1).2 :=
  ⟨rfl, by decide,
    app_timer_increment_follows_tick_spec exApp1 rfl (by decide) (by decide)
      (by decide) (by decide)⟩

/-- Claim C2: after `app_new` on a document with at least one block, the
current block is the first block, the timer is 0, and `full_time` is the
sum of the delays of every block except the block whose successor (index
`(i + 1) % length`) is the first block. -/
theorem app_new_initial_state (frames : List Frame) (h : frames ≠ []) :
    (app_new frames).current_frame = 0 ∧ (app_new frames).timer = 0 ∧
    (app_new frames).full_time =
      ∑ i ∈ (Finset.range frames.length).filter (fun i => (i + 1) % frames.length ≠ 0),
        (frames.getD i default).delay := by
  refine ⟨rfl, rfl, ?_⟩
  have hlen : 0 < frames.length := List.length_pos.mpr h
  show cycleTime frames = _
  rw [filter_pred_eq_range frames.length hlen, cycleTime_eq_sum]

/-- Witness for C2 on a concrete two-block document. -/
theorem app_new_initial_state_witness :
    ([⟨2, []⟩, ⟨3, []⟩] : List Frame) ≠ [] ∧
    ((app_new [⟨2, []⟩, ⟨3, []⟩]).current_frame = 0 ∧
      (app_new [⟨2, []⟩, ⟨3, []⟩]).timer = 0 ∧
      (app_new [⟨2, []⟩, ⟨3, []⟩]).full_time =
        ∑ i ∈ (Finset.range ([⟨2, []⟩, ⟨3, []⟩] : List Frame).length).filter
            (fun i => (i + 1) % ([⟨2, []⟩, ⟨3, []⟩] : List Frame).length ≠ 0),
          (([⟨2, []⟩, ⟨3, []⟩] : List Frame).getD i default).delay) :=
  ⟨by decide, app_new_initial_state [⟨2, []⟩, ⟨3, []⟩] (by decide)⟩

/-- Claim C3: with looping off, once the current block is the final block
(its successor is the first block), no number of further
`app_timer_increment` calls ever moves `current_frame` to a different
block. -/
theorem no_advance_past_final_when_not_looping (a : App)
    (hfin : _is_app_on_final_frame a = true) (hloop : a.looping = false) :
    ∀ k, (ticksN k a).current_frame = a.current_frame :=
  fun k => ticksN_freeze k a hfin hloop

/-- Witness for C3: three ticks on the final frame of `exApp2`. -/
theorem no_advance_past_final_when_not_looping_witness :
    _is_app_on_final_frame exApp2 = true ∧ exApp2.looping = false ∧
    (ticksN 3 exApp2).current_frame = exApp2.current_frame :=
  ⟨by decide, rfl, no_advance_past_final_when_not_looping exApp2 (by decide) rfl 3⟩

/-- Claim C4, counterexample: in the current revision of `sdlapp.c`,
`app_next_frame` does not reset the timer to 0 — at `exApp3`
(timer 5, current delay 3) the timer afterwards is 2. -/
theorem app_next_frame_timer_not_reset : ¬ (app_next_frame exApp3).timer = 0 := by
  decide

/-- Claim C4 as amended: `app_next_frame` unconditionally moves the current
block to its successor and subtracts the current block's delay from the
timer (rather than resetting the timer to 0, which is what the earlier
revision of `sdlapp.c` did). -/
theorem app_next_frame_advances_and_carries_timer (a : App) :
    (app_next_frame a).current_frame = (a.current_frame + 1) % a.images.length ∧
    (app_next_frame a).timer = a.timer - delayAt a :=
  ⟨rfl, rfl⟩

/-- Claim C5: for a document with N >= 1 blocks and any in-range starting
block, N `app_next_frame` steps return the current block to the starting
block, and `app_previous_frame` immediately after one `app_next_frame`
restores the original current block with timer 0. -/
theorem advance_cycle_and_rewind_inverse (a : App)
    (hc : a.current_frame < a.images.length) :
    (app_next_frame_iter a.images.length a).current_frame = a.current_frame ∧
    (app_previous_frame (app_next_frame a)).current_frame = a.current_frame ∧
    (app_previous_frame (app_next_frame a)).timer = 0 := by
  have hlen : 0 < a.images.length := by omega
  refine ⟨?_, ?_, rfl⟩
  · rw [app_next_frame_iter_current a.images.length a hc, Nat.add_mod_right,
      Nat.mod_eq_of_lt hc]
  · have hs : (a.current_frame + 1) % a.images.length < a.images.length :=
      Nat.mod_lt _ hlen
    have hcur : (app_next_frame a).current_frame =
        ((a.current_frame + 1) % a.images.length +
          (a.images.length - a.images.length)) % a.images.length := by
      rw [Nat.sub_self, Nat.add_zero, Nat.mod_eq_of_lt hs]
      rfl
    have h2 := prevLoop_current a.images.length
      ((a.current_frame + 1) % a.images.length) hs a.images.length
      (app_next_frame a) hlen (le_refl _) rfl hcur
    have h3 : ((a.current_frame + 1) % a.images.length + (a.images.length - 1)) %
        a.images.length = a.current_frame := by
      rw [Nat.mod_add_mod,
        show a.current_frame + 1 + (a.images.length - 1) =
          a.current_frame + a.images.length from by omega,
        Nat.add_mod_right]
      exact Nat.mod_eq_of_lt hc
    show (prevLoop (app_next_frame a).images.length (app_next_frame a).current_frame
      (app_next_frame a)).current_frame = a.current_frame
    exact h2.trans h3

/-- Witness for C5 at the concrete state `exApp1` (two blocks). -/
theorem advance_cycle_and_rewind_inverse_witness :
    exApp1.current_frame < exApp1.images.length ∧
    ((app_next_frame_iter exApp1.images.length exApp1).current_frame = exApp1.current_frame ∧
      (app_previous_frame (app_next_frame exApp1)).current_frame = exApp1.current_frame ∧
      (app_previous_frame (app_next_frame exApp1)).timer = 0) :=
  ⟨by decide, advance_cycle_and_rewind_inverse exApp1 (by decide)⟩

/-- Claim C8: when playback is paused, `app_timer_increment` leaves the
whole state unchanged and returns false ("did not advance"). -/
theorem app_timer_increment_paused_noop (a : App) (hp : a.paused = true) :
    app_timer_increment a = (a, false) := by
  have h : viewer_should_timer_increment a = false := by
    simp [viewer_should_timer_increment, hp]
  unfold app_timer_increment
  rw [if_pos h]

/-- Witness for C8 at the concrete paused state `exApp4`. -/
theorem app_timer_increment_paused_noop_witness :
    exApp4.paused = true ∧ app_timer_increment exApp4 = (exApp4, false) :=
  ⟨rfl, app_timer_increment_paused_noop exApp4 rfl⟩

/-- Claim C9: under the `app_new` invariants, with `full_time` positive and
every delay non-negative (delays come from the 16-bit GIF delay field),
the frame-advance loop of `app_timer_increment` terminates: after at most
`images.length + 1` iterations it has reached a state where its own
stopping condition holds, and giving the loop any more fuel does not
change the result, so the tick is a total function of the state. -/
theorem tick_loop_terminates (a : App)
    (hc : a.current_frame < a.images.length)
    (hft : a.full_time = cycleTime a.images)
    (hpos : 0 < a.full_time)
    (hnn : ∀ f ∈ a.images, 0 ≤ f.delay) :
    ∃ n, Stopped ((loopGo n
        { a with timer := fmod (a.timer + a.playback_speed) a.full_time } false).1) ∧
      ∀ m, n ≤ m →
        loopGo m { a with timer := fmod (a.timer + a.playback_speed) a.full_time } false =
        loopGo n { a with timer := fmod (a.timer + a.playback_speed) a.full_time } false :=
  ⟨a.images.length + 1, tick_mid_stopped a hc hft hpos hnn,
    fun m hm => loopGo_extend _ _ _ (tick_mid_stopped a hc hft hpos hnn) m hm⟩

/-- Witness for C9 at the concrete state `exApp1`. -/
theorem tick_loop_terminates_witness :
    0 < exApp1.full_time ∧
    ∃ n, Stopped ((loopGo n
        { exApp1 with timer := fmod (exApp1.timer + exApp1.playback_speed) exApp1.full_time } false).1) ∧
      ∀ m, n ≤ m →
        loopGo m { exApp1 with timer := fmod (exApp1.timer + exApp1.playback_speed) exApp1.full_time } false =
        loopGo n { exApp1 with timer := fmod (exApp1.timer + exApp1.playback_speed) exApp1.full_time } false :=
  ⟨by decide, tick_loop_terminates exApp1 (by decide) (by decide) (by decide) (by decide)⟩

/-- Claim C10: a call to `app_timer_increment` mutates at most `timer` and
`current_frame`: the paused and looping flags, the playback speed,
`full_time`, and the document's block list (`images`, which carries the
link order, the delays and the pixel data) are all unchanged, whatever the
returned boolean is. -/
theorem app_timer_increment_frame_effect (a : App) :
    ((app_timer_increment a).1).images = a.images ∧
    ((app_timer_increment a).1).paused = a.paused ∧
    ((app_timer_increment a).1).looping = a.looping ∧
    ((app_timer_increment a).1).playback_speed = a.playback_speed ∧
    ((app_timer_increment a).1).full_time = a.full_time := by
  unfold app_timer_increment
  by_cases hp : viewer_should_timer_increment a = false
  · rw [if_pos hp]
    exact ⟨rfl, rfl, rfl, rfl, rfl⟩
  · rw [if_neg hp]
    exact loopGo_const _ _ _

/-- GIF version, from `enum Version` in `gif.h`. -/
inductive Version
  | GIF_Version_Unknown
  | GIF_Version_87a
  | GIF_Version_89a
deriving DecidableEq

/-- Logical screen descriptor, from `struct GIF_LSD` in `gif.h`. -/
structure GIF_LSD where
  width : ℕ
  height : ℕ
  bg_color_index : ℕ
  color_resolution : ℕ
  pixel_aspect_ratio : ℕ
  gct_flag : Bool
  sort_flag : Bool
  gct_size : ℕ
  color_table : List ℕ
deriving DecidableEq

/-- Table-based image data, from `struct GIF_ImageData` in `gif.h`; after
parsing, `image` holds the decompressed pixel indices. -/
structure GIF_ImageData where
  min_code_size : ℕ
  image_size : ℕ
  image : List ℕ
deriving DecidableEq

/-- Image descriptor, from `struct GIF_Image` in `gif.h` (the header names
the second position field `right`; it carries the top coordinate). -/
structure GIF_Image where
  left : ℕ
  right : ℕ
  width : ℕ
  height : ℕ
  interlace_flag : Bool
  lct_flag : Bool
  sort_flag : Bool
  lct_size : ℕ
  color_table : List ℕ
  data : GIF_ImageData
deriving DecidableEq

/-- Graphic control extension, from `struct GIF_GraphicExt` in `gif.h`
(the disposal method is kept as the raw 3-bit field value). -/
structure GIF_GraphicExt where
  disposal_method : ℕ
  user_input_flag : Bool
  transparent_color_flag : Bool
  delay_time : ℕ
  transparent_color_idx : ℕ
deriving DecidableEq

/-- Plain Text extension, from `struct GIF_PlainTextExt` in `gif.h`. -/
structure GIF_PlainTextExt where
  tg_left : ℕ
  tg_top : ℕ
  tg_width : ℕ
  tg_height : ℕ
  cell_width : ℕ
  cell_height : ℕ
  fg_idx : ℕ
  bg_idx : ℕ
  data_size : ℕ
  data : List ℕ
deriving DecidableEq

/-- The payload union of `struct GIF_Graphic` (`is_img` plus the anonymous
union). -/
inductive GraphicData
  | img (i : GIF_Image)
  | plaintext (p : GIF_PlainTextExt)
deriving DecidableEq

/-- Graphic block, from `struct GIF_Graphic` in `gif.h` (`has_extension`
and `extension` are fused into an `Option`; the `next` pointer is implicit
in the list order of the containing document, the last block's successor
being the first). -/
structure GIF_Graphic where
  extension : Option GIF_GraphicExt
  data : GraphicData
deriving DecidableEq

/-- Container for GIF data, from `struct GIF` in `gif.h`. -/
structure GIF where
  version : Version
  lsd : GIF_LSD
  graphics : List GIF_Graphic
deriving DecidableEq

/-- Error kinds of the parser and decoder, per §7 of the spec. -/
inductive GifError
  | unexpectedEndOfData
  | malformedBlock
  | corruptImageData
  | invalidColorTableSize
deriving DecidableEq

/-- Numeric value of an LSB-first bit list. -/
def bitsToNat : List Bool → ℕ
  | [] => 0
  | b :: rest => (if b then 1 else 0) + 2 * bitsToNat rest

/-- The low 8 bits of a byte, least significant bit first. -/
def byteToBits (n : ℕ) : List Bool :=
  (List.range 8).map (fun i => n.testBit i)

/-- Concatenated LSB-first bitstream of a byte list (sub-block framing
already removed; per §4.3 the sub-block boundaries are invisible to the
bit packing). -/
def bytesToBits : List ℕ → List Bool
  | [] => []
  | b :: rest => byteToBits b ++ bytesToBits rest

/-- Modelled from the spec: the initial LZW dictionary (the decoder lives
in `gif.c`, absent from the sources) — one single-byte entry per raw value
below `clear_code = 2 ^ min_code_size`, plus two placeholder entries so
that an entry's list index is its code (`clear_code` and
`end_code = clear_code + 1` are intercepted before lookup). -/
def initDict (minCodeSize : ℕ) : List (List ℕ) :=
  (List.range (2 ^ minCodeSize)).map (fun n => [n]) ++ [[], []]

/-- Modelled from the spec: the post-emit dictionary update of §4.3 — add
previous-entry ++ first byte of the current entry, unless no previous
entry exists or the dictionary is at the 4096-entry ceiling; then grow the
code width by one bit the moment the entry count reaches `2 ^ width`,
capped at 12 bits. -/
def lzwNext (dict : List (List ℕ)) (width : ℕ) (prev : Option (List ℕ))
    (entry : List ℕ) : List (List ℕ) × ℕ :=
  let dict1 :=
    match prev with
    | none => dict
    | some p => if dict.length < 4096 then dict ++ [p ++ [entry.headD 0]] else dict
  (dict1, if dict1.length = 2 ^ width ∧ width < 12 then width + 1 else width)

/-- Modelled from the spec: the LZW decode loop of §4.3 (`gif.c` is absent
from the sources).  One variable-width code is consumed per step: a clear
code resets dictionary and width; the end code stops — an error if fewer
than `expected` pixels were produced, otherwise the output truncated at
exactly `expected`; a known code emits its entry; code = next-to-assign
with a previous entry applies the standard previous ++ first-of-previous
special case; any other code is corrupt data, as is running out of bits
before the end code.  The fuel only bounds the number of codes read: the
caller passes more fuel than there are bits and every step consumes at
least one bit. -/
def lzwLoop (minCodeSize expected : ℕ) :
    ℕ → List Bool → List (List ℕ) → ℕ → Option (List ℕ) → List ℕ →
    Except GifError (List ℕ)
  | 0, _, _, _, _, _ => .error .corruptImageData
  | fuel + 1, bits, dict, width, prev, out =>
    if bits.length < width then .error .corruptImageData
    else if bitsToNat (bits.take width) = 2 ^ minCodeSize then
      lzwLoop minCodeSize expected fuel (bits.drop width) (initDict minCodeSize)
        (minCodeSize + 1) none out
    else if bitsToNat (bits.take width) = 2 ^ minCodeSize + 1 then
      if out.length < expected then .error .corruptImageData
      else .ok (out.take expected)
    else if bitsToNat (bits.take width) < dict.length then
      lzwLoop minCodeSize expected fuel (bits.drop width)
        (lzwNext dict width prev (dict.getD (bitsToNat (bits.take width)) [])).1
        (lzwNext dict width prev (dict.getD (bitsToNat (bits.take width)) [])).2
        (some (dict.getD (bitsToNat (bits.take width)) []))
        (out ++ dict.getD (bitsToNat (bits.take width)) [])
    else
      match prev with
      | some p =>
        if bitsToNat (bits.take width) = dict.length then
          lzwLoop minCodeSize expected fuel (bits.drop width)
            (lzwNext dict width (some p) (p ++ [p.headD 0])).1
            (lzwNext dict width (some p) (p ++ [p.headD 0])).2
            (some (p ++ [p.headD 0])) (out ++ (p ++ [p.headD 0]))
        else .error .corruptImageData
      | none => .error .corruptImageData

/-- Modelled from the spec: `decode(min_code_size, compressed_bytes,
expected_pixel_count)` of §4.3 — initial width `min_code_size + 1`, fresh
dictionary, no previous entry, empty output, over the concatenated
LSB-first bitstream. -/
def lzw_decode (minCodeSize : ℕ) (bytes : List ℕ) (expected : ℕ) :
    Except GifError (List ℕ) :=
  lzwLoop minCodeSize expected ((bytesToBits bytes).length + 1) (bytesToBits bytes)
    (initDict minCodeSize) (minCodeSize + 1) none []

example : lzw_decode 2 [76, 1] 1 = .ok [1] := rfl
example : lzw_decode 2 [76, 1] 2 = .error .corruptImageData := rfl

/-- Modelled from the spec: the length-prefixed sub-block chain reader of
§4.2 — each sub-block is a length byte N followed by N data bytes, a
zero-length sub-block terminates the chain; the concatenated payload and
the remaining bytes are returned, and exhausting the cursor mid-chain is
`UnexpectedEndOfData`.  Every step consumes at least the length byte, so
fuel exceeding the input length never runs out. -/
def readSubBlocks : ℕ → List ℕ → Except GifError (List ℕ × List ℕ)
  | 0, _ => .error .unexpectedEndOfData
  | _ + 1, [] => .error .unexpectedEndOfData
  | fuel + 1, n :: rest =>
    if n = 0 then .ok ([], rest)
    else if rest.length < n then .error .unexpectedEndOfData
    else
      match readSubBlocks fuel (rest.drop n) with
      | .ok (p, r) => .ok (rest.take n ++ p, r)
      | .error e => .error e

/-- Modelled from the spec: the Graphic Control sub-block (block size 4,
packed flags, 16-bit little-endian delay, transparent index, zero
terminator); its fields land in `struct GIF_GraphicExt`. -/
def parseGraphicControl (bytes : List ℕ) : Except GifError (GIF_GraphicExt × List ℕ) :=
  match bytes with
  | 4 :: packed :: dlo :: dhi :: tidx :: 0 :: rest =>
    .ok ({ disposal_method := packed / 4 % 8
           user_input_flag := packed.testBit 1
           transparent_color_flag := packed.testBit 0
           delay_time := dlo + 256 * dhi
           transparent_color_idx := tidx }, rest)
  | _ => .error .malformedBlock

/-- Modelled from the spec: the Plain Text extension (12-byte header
sub-block with text-grid geometry, cell sizes and color indices, then a
sub-block chain of text bytes); its fields land in
`struct GIF_PlainTextExt`. -/
def parsePlainText (bytes : List ℕ) : Except GifError (GIF_PlainTextExt × List ℕ) :=
  match bytes with
  | 12 :: a1 :: a2 :: b1 :: b2 :: c1 :: c2 :: d1 :: d2 :: cw :: ch :: fg :: bg :: rest =>
    match readSubBlocks (rest.length + 1) rest with
    | .error e => .error e
    | .ok (payload, rest2) =>
      .ok ({ tg_left := a1 + 256 * a2
             tg_top := b1 + 256 * b2
             tg_width := c1 + 256 * c2
             tg_height := d1 + 256 * d2
             cell_width := cw
             cell_height := ch
             fg_idx := fg
             bg_idx := bg
             data_size := payload.length
             data := payload }, rest2)
  | _ => .error .malformedBlock

/-- Byte length of a color table whose presence flag is bit 7 of the
packed byte and whose size exponent is the low 3 bits: `3 * 2 ^ (N + 1)`
bytes when present, 0 otherwise (§4.2's sizing rule, shared by the global
and local tables). -/
def ctLen (packed : ℕ) : ℕ :=
  if packed.testBit 7 then 3 * 2 ^ (packed % 8 + 1) else 0

/-- Modelled from the spec: the image block body of §4.2 — 9-byte image
descriptor (position, dimensions, packed flags), optional local color
table of `3 * 2 ^ (N + 1)` bytes, the LZW minimum code size byte, the
image-data sub-block chain, and the decode of its concatenated payload
into exactly `width * height` pixel indices. -/
def parseImageBlock (bytes : List ℕ) : Except GifError (GIF_Image × List ℕ) :=
  match bytes with
  | l1 :: l2 :: t1 :: t2 :: w1 :: w2 :: h1 :: h2 :: packed :: rest =>
    if rest.length < ctLen packed then
      .error .unexpectedEndOfData
    else
      match rest.drop (ctLen packed) with
      | [] => .error .unexpectedEndOfData
      | mcs :: rest2 =>
        match readSubBlocks (rest2.length + 1) rest2 with
        | .error e => .error e
        | .ok (payload, rest3) =>
          match lzw_decode mcs payload ((w1 + 256 * w2) * (h1 + 256 * h2)) with
          | .error e => .error e
          | .ok pixels =>
            .ok ({ left := l1 + 256 * l2
                   right := t1 + 256 * t2
                   width := w1 + 256 * w2
                   height := h1 + 256 * h2
                   interlace_flag := packed.testBit 6
                   lct_flag := packed.testBit 7
                   sort_flag := packed.testBit 5
                   lct_size := if packed.testBit 7 then 2 ^ (packed % 8 + 1) else 0
                   color_table :=
                     if packed.testBit 7 then rest.take (3 * 2 ^ (packed % 8 + 1)) else []
                   data := { min_code_size := mcs
                             image_size := (w1 + 256 * w2) * (h1 + 256 * h2)
                             image := pixels } }, rest3)
  | _ => .error .unexpectedEndOfData

/-- Modelled from the spec: the block-introducer loop of §4.2 — a trailer
byte (0x3B) or an exhausted cursor ends the loop; 0x21 starts an extension
whose label selects Graphic Control (cached and attached to the next
image/plain-text block), Plain Text (becomes a block), or Comment /
Application (sub-block chain consumed and discarded); 0x2C starts an image
block; any other introducer is `MalformedBlock`, aborting the parse. -/
def parseBlocks : ℕ → List ℕ → Option GIF_GraphicExt →
    Except GifError (List GIF_Graphic)
  | 0, _, _ => .error .unexpectedEndOfData
  | _ + 1, [], _ => .ok []
  | fuel + 1, b :: rest, gce =>
    if b = 59 then .ok []
    else if b = 33 then
      match rest with
      | [] => .error .unexpectedEndOfData
      | label :: rest2 =>
        if label = 249 then
          match parseGraphicControl rest2 with
          | .error e => .error e
          | .ok (ext, rest3) => parseBlocks fuel rest3 (some ext)
        else if label = 1 then
          match parsePlainText rest2 with
          | .error e => .error e
          | .ok (pt, rest3) =>
            match parseBlocks fuel rest3 none with
            | .error e => .error e
            | .ok bs => .ok ({ extension := gce, data := .plaintext pt } :: bs)
        else if label = 254 ∨ label = 255 then
          match readSubBlocks (rest2.length + 1) rest2 with
          | .error e => .error e
          | .ok (_, rest3) => parseBlocks fuel rest3 gce
        else .error .malformedBlock
    else if b = 44 then
      match parseImageBlock rest with
      | .error e => .error e
      | .ok (img, rest3) =>
        match parseBlocks fuel rest3 none with
        | .error e => .error e
        | .ok bs => .ok ({ extension := gce, data := .img img } :: bs)
    else .error .malformedBlock

/-- Modelled from the spec: `parse(bytes) -> Document | ParseError` of
§4.2 (`gif.c`, declared in `gif.h` as `load_gif_from_file`, is absent from
the sources) — validate the 6-byte signature+version (unknown versions are
recorded as `Unknown`, non-fatal), read the logical screen descriptor and
the optional global color table, run the block loop, and reject a document
with no graphic blocks (per §4.4/§7, an empty document is rejected at
construction time).  Parsing is atomic: the only success path returns a
complete document, every other path returns an error. -/
def parse_gif (bytes : List ℕ) : Except GifError GIF :=
  match bytes with
  | 71 :: 73 :: 70 :: v1 :: v2 :: v3 :: rest =>
    match rest with
    | w1 :: w2 :: h1 :: h2 :: packed :: bg :: par :: rest2 =>
      if rest2.length < ctLen packed then
        .error .unexpectedEndOfData
      else
        match parseBlocks (rest2.length + 1) (rest2.drop (ctLen packed)) none with
        | .error e => .error e
        | .ok [] => .error .malformedBlock
        | .ok (g :: gs) =>
          .ok { version :=
                  if v1 = 56 ∧ v2 = 55 ∧ v3 = 97 then Version.GIF_Version_87a
                  else if v1 = 56 ∧ v2 = 57 ∧ v3 = 97 then Version.GIF_Version_89a
                  else Version.GIF_Version_Unknown
                lsd := { width := w1 + 256 * w2
                         height := h1 + 256 * h2
                         bg_color_index := bg
                         color_resolution := packed / 16 % 8
                         pixel_aspect_ratio := par
                         gct_flag := packed.testBit 7
                         sort_flag := packed.testBit 3
                         gct_size := if packed.testBit 7 then 2 ^ (packed % 8 + 1) else 0
                         color_table :=
                           if packed.testBit 7 then
                             rest2.take (3 * 2 ^ (packed % 8 + 1))
                           else [] }
                graphics := g :: gs }
    | _ => .error .unexpectedEndOfData
  | _ => .error .malformedBlock

example :
    parse_gif
      [71, 73, 70, 56, 57, 97, 1, 0, 1, 0, 0, 0, 0,
        44, 0, 0, 0, 0, 1, 0, 1, 0, 0, 2, 2, 76, 1, 0, 59] =
    .ok { version := Version.GIF_Version_89a
          lsd := { width := 1, height := 1, bg_color_index := 0,
                   color_resolution := 0, pixel_aspect_ratio := 0,
                   gct_flag := false, sort_flag := false, gct_size := 0,
                   color_table := [] }
          graphics := [{ extension := none
                         data := .img { left := 0, right := 0, width := 1, height := 1,
                                        interlace_flag := false, lct_flag := false,
                                        sort_flag := false, lct_size := 0,
                                        color_table := [],
                                        data := { min_code_size := 2, image_size := 1,
                                                  image := [1] } } }] } := rfl

/-- Well-formedness of a parsed graphic block: an image block's decoded
pixel buffer has exactly `width * height` entries. -/
def GraphicWF (g : GIF_Graphic) : Prop :=
  ∀ i : GIF_Image, g.data = GraphicData.img i → i.data.image.length = i.width * i.height

/-- Well-formedness of a parsed document: at least one graphic block, and
every image block carries a pixel buffer of exactly its declared size. -/
def DocumentWF (d : GIF) : Prop :=
  d.graphics ≠ [] ∧ ∀ g ∈ d.graphics, GraphicWF g

lemma lzwLoop_ok_length (minCodeSize expected : ℕ) :
    ∀ (fuel : ℕ) (bits : List Bool) (dict : List (List ℕ)) (width : ℕ)
      (prev : Option (List ℕ)) (out res : List ℕ),
      lzwLoop minCodeSize expected fuel bits dict width prev out = .ok res →
      res.length = expected
  | 0, bits, dict, width, prev, out, res => by
    intro h
    simp [lzwLoop] at h
  | fuel + 1, bits, dict, width, prev, out, res => by
    intro h
    unfold lzwLoop at h
    split at h
    · simp at h
    · split at h
      · exact lzwLoop_ok_length minCodeSize expected fuel _ _ _ _ _ _ h
      · split at h
        · split at h
          · simp at h
          · simp only [Except.ok.injEq] at h
            subst h
            rw [List.length_take]
            omega
        · split at h
          · exact lzwLoop_ok_length minCodeSize expected fuel _ _ _ _ _ _ h
          · split at h
            · split at h
              · exact lzwLoop_ok_length minCodeSize expected fuel _ _ _ _ _ _ h
              · simp at h
            · simp at h

lemma parseImageBlock_wf (bytes : List ℕ) (img : GIF_Image) (rest : List ℕ)
    (h : parseImageBlock bytes = .ok (img, rest)) :
    img.data.image.length = img.width * img.height := by
  unfold parseImageBlock at h
  split at h
  · split at h
    · simp at h
    · split at h
      · simp at h
      · split at h
        · simp at h
        · split at h
          · simp at h
          · rename_i pixels hdec
            simp only [Except.ok.injEq, Prod.mk.injEq] at h
            obtain ⟨h1, h2⟩ := h
            subst h1
            unfold lzw_decode at hdec
            exact lzwLoop_ok_length _ _ _ _ _ _ _ _ _ hdec
  · simp at h

lemma parseBlocks_wf : ∀ (fuel : ℕ) (bytes : List ℕ) (gce : Option GIF_GraphicExt)
    (bs : List GIF_Graphic),
    parseBlocks fuel bytes gce = .ok bs → ∀ g ∈ bs, GraphicWF g
  | 0, bytes, gce, bs => by
    intro h
    simp [parseBlocks] at h
  | fuel + 1, bytes, gce, bs => by
    intro h g hg
    rcases bytes with _ | ⟨b, rest⟩
    · simp only [parseBlocks, Except.ok.injEq] at h
      subst h
      exact absurd hg (List.not_mem_nil g)
    · simp only [parseBlocks] at h
      split at h
      · simp only [Except.ok.injEq] at h
        subst h
        exact absurd hg (List.not_mem_nil g)
      · split at h
        · split at h
          · simp at h
          · split at h
            · split at h
              · simp at h
              · exact parseBlocks_wf fuel _ _ _ h g hg
            · split at h
              · split at h
                · simp at h
                · rename_i ptpair hpt
                  split at h
                  · simp at h
                  · rename_i bs' hbs'
                    simp only [Except.ok.injEq] at h
                    subst h
                    rcases List.mem_cons.mp hg with rfl | hg
                    · intro i hi
                      simp at hi
                    · exact parseBlocks_wf fuel _ _ _ hbs' g hg
              · split at h
                · split at h
                  · simp at h
                  · exact parseBlocks_wf fuel _ _ _ h g hg
                · simp at h
        · split at h
          · split at h
            · simp at h
            · rename_i imgpair hpr
              split at h
              · simp at h
              · rename_i bs' hbs'
                simp only [Except.ok.injEq] at h
                subst h
                rcases List.mem_cons.mp hg with rfl | hg
                · intro i hi
                  simp only [GraphicData.img.injEq] at hi
                  subst hi
                  exact parseImageBlock_wf rest _ _ (by simpa using hpr)
                · exact parseBlocks_wf fuel _ _ _ hbs' g hg
          · simp at h

/-- Claim C6: the decoder returns `CorruptImageData` whenever the end code
is read with fewer than `expected_pixel_count` pixels produced (first
conjunct, stated on the decode loop at the step that reads the end code);
when the end code is read with at least `expected_pixel_count` pixels
produced, the output is truncated to exactly that length and returned
successfully rather than treated as an error (second conjunct); and every
successful `decode(min_code_size, bytes, expected_pixel_count)` returns
exactly `expected_pixel_count` pixels (third conjunct). -/
theorem lzw_decode_end_code_and_length :
    (∀ (minCodeSize expected fuel : ℕ) (bits : List Bool) (dict : List (List ℕ))
        (width : ℕ) (prev : Option (List ℕ)) (out : List ℕ),
        ¬ bits.length < width →
        bitsToNat (bits.take width) = 2 ^ minCodeSize + 1 →
        out.length < expected →
        lzwLoop minCodeSize expected (fuel + 1) bits dict width prev out =
          .error .corruptImageData) ∧
    (∀ (minCodeSize expected fuel : ℕ) (bits : List Bool) (dict : List (List ℕ))
        (width : ℕ) (prev : Option (List ℕ)) (out : List ℕ),
        ¬ bits.length < width →
        bitsToNat (bits.take width) = 2 ^ minCodeSize + 1 →
        expected ≤ out.length →
        lzwLoop minCodeSize expected (fuel + 1) bits dict width prev out =
          .ok (out.take expected)) ∧
    (∀ (minCodeSize expected : ℕ) (bytes res : List ℕ),
        lzw_decode minCodeSize bytes expected = .ok res → res.length = expected) := by
  refine ⟨?_, ?_, ?_⟩
  · intro mcs exp fuel bits dict width prev out hlen hcode hout
    unfold lzwLoop
    rw [if_neg hlen, hcode,
      if_neg (by omega : ¬ (2 ^ mcs + 1 = 2 ^ mcs)), if_pos rfl, if_pos hout]
  · intro mcs exp fuel bits dict width prev out hlen hcode hout
    unfold lzwLoop
    rw [if_neg hlen, hcode,
      if_neg (by omega : ¬ (2 ^ mcs + 1 = 2 ^ mcs)), if_pos rfl,
      if_neg (not_lt.mpr hout)]
  · intro mcs exp bytes res h
    exact lzwLoop_ok_length mcs exp _ _ _ _ _ _ _ h

/-- Witness for C6: reading the end code (code 5 at min code size 2, bit
pattern 101 LSB-first) with 0 of 1 expected pixels produced errors;
reading it with 2 pixels produced for 1 expected truncates to 1 pixel; and
a concrete successful decode has exactly the expected length. -/
theorem lzw_decode_end_code_and_length_witness :
    lzwLoop 2 1 1 [true, false, true] (initDict 2) 3 none [] =
      .error .corruptImageData ∧
    lzwLoop 2 1 1 [true, false, true] (initDict 2) 3 none [7, 7] = .ok [7] ∧
    ([1] : List ℕ).length = 1 :=
  ⟨lzw_decode_end_code_and_length.1 2 1 0 [true, false, true] (initDict 2) 3 none []
      (by decide) (by decide) (by decide),
    lzw_decode_end_code_and_length.2.1 2 1 0 [true, false, true] (initDict 2) 3 none [7, 7]
      (by decide) (by decide) (by decide),
    lzw_decode_end_code_and_length.2.2 2 1 [76, 1] [1] rfl⟩

/-- Claim C7: parsing is atomic — for every input byte buffer, `parse_gif`
either returns an error or returns a complete document that satisfies the
document invariants (at least one graphic block, and every image block's
pixel buffer has exactly `width * height` entries); no partial document is
ever returned on a parse-time error. -/
theorem parse_gif_atomic (bytes : List ℕ) :
    (∃ e, parse_gif bytes = .error e) ∨
    (∃ d, parse_gif bytes = .ok d ∧ DocumentWF d) := by
  cases hp : parse_gif bytes with
  | error e => exact Or.inl ⟨e, rfl⟩
  | ok d =>
    refine Or.inr ⟨d, rfl, ?_⟩
    unfold parse_gif at hp
    split at hp
    · split at hp
      · split at hp
        · simp at hp
        · split at hp
          · simp at hp
          · simp at hp
          · rename_i g gs hblocks
            simp only [Except.ok.injEq] at hp
            subst hp
            refine ⟨by simp, ?_⟩
            intro g' hg'
            exact parseBlocks_wf _ _ _ _ hblocks g' (by simpa using hg')
      · simp at hp
    · simp at hp

end GifView
